import Mathlib

/-!
Shallow embedding of the stereo-matching core of the visgeom repository
(`src/reconstruction/eucm_stereo.cpp` and the `EnhancedEpipolar` header),
together with theorems settling the specification claims about it.

Machine integers of the C++ code (`int`, accumulated costs, penalties) are
modelled as `ℤ`; C++ integer division (truncation toward zero) is `Int.tdiv`;
an `int` stored into a `uint8_t` cell is reduced modulo 256.  Doubles are
modelled as `ℚ` wherever the code only uses field operations and comparisons,
and as `ℝ` where a square root (Euclidean norm) occurs.
-/

namespace Visgeom

/-! ## Dynamic programming (EnhancedStereo::computeDynamicStep,
    EnhancedStereo::computeDynamicProgramming) -/

/-- The running minimum of `computeDynamicStep`:
`bestCost = inCost[0]; for i in 1..n-1: bestCost = min(bestCost, inCost[i])`. -/
def bestCostAux (c : ℕ → ℤ) : ℕ → ℤ
  | 0 => c 0
  | i + 1 => min (bestCostAux c i) (c (i + 1))

/-- `bestCost` over the `n` disparities of one cost column (`n = dispMax`). -/
def bestCost (n : ℕ) (c : ℕ → ℤ) : ℤ := bestCostAux c (n - 1)

/-- One call of `EnhancedStereo::computeDynamicStep`: from the previous output
column `inCost` and the raw cost column `err`, produce the next output column.
The three branches are the code blocks for `d = 0`, the interior loop, and
`d = dispMax - 1`; the order of the `min` chain follows the code. -/
def computeDynamicStep (n : ℕ) (lambdaStep lambdaJump : ℤ)
    (inCost err : ℕ → ℤ) (d : ℕ) : ℤ :=
  if d = 0 then
    min (min (inCost 0) (inCost 1 + lambdaStep)) (bestCost n inCost + lambdaJump) + err 0
  else if d = n - 1 then
    min (min (inCost (n - 1)) (inCost (n - 2) + lambdaStep))
      (bestCost n inCost + lambdaJump) + err (n - 1)
  else
    min (min (min (inCost d) (inCost (d + 1) + lambdaStep)) (inCost (d - 1) + lambdaStep))
      (bestCost n inCost + lambdaJump) + err d

/-- One directional sweep of `computeDynamicProgramming`: the scan is seeded
with the raw cost column (`copy(errorRow, ...)`) and every subsequent element
is produced by `computeDynamicStep` from its predecessor.  `cost k` is the raw
cost column at position `k` along the scan. -/
def scanDP (n : ℕ) (lambdaStep lambdaJump : ℤ) (cost : ℕ → ℕ → ℤ) : ℕ → ℕ → ℤ
  | 0 => cost 0
  | k + 1 => computeDynamicStep n lambdaStep lambdaJump
      (scanDP n lambdaStep lambdaJump cost k) (cost (k + 1))

/-- The left tableau: row `v` scanned with `u` increasing. -/
def tableauLeftDP (n : ℕ) (lambdaStep lambdaJump : ℤ) (cost : ℕ → ℕ → ℕ → ℤ)
    (v u : ℕ) : ℕ → ℤ :=
  scanDP n lambdaStep lambdaJump (fun k => cost v k) u

/-- The right tableau: row `v` scanned with `u` decreasing from `W - 1`. -/
def tableauRightDP (n W : ℕ) (lambdaStep lambdaJump : ℤ) (cost : ℕ → ℕ → ℕ → ℤ)
    (v u : ℕ) : ℕ → ℤ :=
  scanDP n lambdaStep lambdaJump (fun k => cost v (W - 1 - k)) (W - 1 - u)

/-- The top tableau: column `u` scanned with `v` increasing. -/
def tableauTopDP (n : ℕ) (lambdaStep lambdaJump : ℤ) (cost : ℕ → ℕ → ℕ → ℤ)
    (v u : ℕ) : ℕ → ℤ :=
  scanDP n lambdaStep lambdaJump (fun k => cost k u) v

/-- The bottom tableau: column `u` scanned with `v` decreasing from `H - 1`. -/
def tableauBottomDP (n H : ℕ) (lambdaStep lambdaJump : ℤ) (cost : ℕ → ℕ → ℕ → ℤ)
    (v u : ℕ) : ℕ → ℤ :=
  scanDP n lambdaStep lambdaJump (fun k => cost (H - 1 - k) u) (H - 1 - v)

/-- The recurrence stated by the specification for one dynamic-programming
step: there is a value `best` that is the minimum of the previous column, and
`cur[d] = cost[d] + min(prev[d], prev[d-1] + lambdaStep, prev[d+1] + lambdaStep,
best + lambdaJump)`, where `d = 0` and `d = n - 1` omit the missing neighbor. -/
def IsDPStep (n : ℕ) (lambdaStep lambdaJump : ℤ) (prev costCol cur : ℕ → ℤ) : Prop :=
  ∃ best : ℤ,
    (∀ j, j < n → best ≤ prev j) ∧
    (∃ j, j < n ∧ best = prev j) ∧
    cur 0 = costCol 0 + min (prev 0) (min (prev 1 + lambdaStep) (best + lambdaJump)) ∧
    (∀ d, 0 < d → d < n - 1 →
      cur d = costCol d + min (prev d) (min (prev (d - 1) + lambdaStep)
        (min (prev (d + 1) + lambdaStep) (best + lambdaJump)))) ∧
    cur (n - 1) = costCol (n - 1) + min (prev (n - 1))
      (min (prev (n - 2) + lambdaStep) (best + lambdaJump))

lemma bestCostAux_le (c : ℕ → ℤ) : ∀ i, ∀ j, j ≤ i → bestCostAux c i ≤ c j := by
  intro i
  induction i with
  | zero => intro j hj; interval_cases j; exact le_refl _
  | succ i ih =>
      intro j hj
      rcases Nat.lt_or_ge j (i + 1) with h | h
      · exact le_trans (min_le_left _ _) (ih j (Nat.lt_succ_iff.mp h))
      · have : j = i + 1 := le_antisymm hj h
        subst this
        exact min_le_right _ _

lemma bestCostAux_mem (c : ℕ → ℤ) : ∀ i, ∃ j, j ≤ i ∧ bestCostAux c i = c j := by
  intro i
  induction i with
  | zero => exact ⟨0, le_refl 0, rfl⟩
  | succ i ih =>
      rcases ih with ⟨j, hj, hv⟩
      rcases min_cases (bestCostAux c i) (c (i + 1)) with ⟨h, _⟩ | ⟨h, _⟩
      · exact ⟨j, le_trans hj (Nat.le_succ i), by simpa [bestCostAux, h] using hv⟩
      · exact ⟨i + 1, le_refl _, by simp [bestCostAux, h]⟩

lemma bestCost_le (n : ℕ) (c : ℕ → ℤ) (j : ℕ) (hj : j < n) : bestCost n c ≤ c j :=
  bestCostAux_le c (n - 1) j (by omega)

lemma bestCost_mem (n : ℕ) (c : ℕ → ℤ) (hn : 0 < n) : ∃ j, j < n ∧ bestCost n c = c j := by
  rcases bestCostAux_mem c (n - 1) with ⟨j, hj, hv⟩
  exact ⟨j, by omega, hv⟩

lemma computeDynamicStep_isDPStep (n : ℕ) (ls lj : ℤ) (prev costCol : ℕ → ℤ)
    (hn : 2 ≤ n) :
    IsDPStep n ls lj prev costCol (computeDynamicStep n ls lj prev costCol) := by
  refine ⟨bestCost n prev, fun j hj => bestCost_le n prev j hj,
    bestCost_mem n prev (by omega), ?_, ?_, ?_⟩
  · show computeDynamicStep n ls lj prev costCol 0 = _
    rw [computeDynamicStep, if_pos rfl]
    omega
  · intro d hd0 hdn
    show computeDynamicStep n ls lj prev costCol d = _
    have h1 : ¬ (d = 0) := by omega
    have h2 : ¬ (d = n - 1) := by omega
    rw [computeDynamicStep, if_neg h1, if_neg h2]
    omega
  · show computeDynamicStep n ls lj prev costCol (n - 1) = _
    have h1 : ¬ (n - 1 = 0) := by omega
    rw [computeDynamicStep, if_neg h1, if_pos rfl]
    omega

/-- C2: for each of the four scanline directions (increasing column, decreasing
column, increasing row, decreasing row), the first tableau element of every
scan equals the raw cost, and every subsequent element satisfies
`T[d] = cost[d] + min(T_prev[d], T_prev[d-1]+lambdaStep, T_prev[d+1]+lambdaStep,
min over all previous disparities + lambdaJump)`, the boundary disparities
omitting the missing neighbor term. -/
theorem dp_scan_first_and_step (n W H : ℕ) (ls lj : ℤ) (cost : ℕ → ℕ → ℕ → ℤ)
    (hn : 2 ≤ n) :
    (∀ v d, tableauLeftDP n ls lj cost v 0 d = cost v 0 d) ∧
    (∀ v u, IsDPStep n ls lj (tableauLeftDP n ls lj cost v u)
      (cost v (u + 1)) (tableauLeftDP n ls lj cost v (u + 1))) ∧
    (∀ v d, tableauRightDP n W ls lj cost v (W - 1) d = cost v (W - 1) d) ∧
    (∀ v u, u < W - 1 → IsDPStep n ls lj (tableauRightDP n W ls lj cost v (u + 1))
      (cost v u) (tableauRightDP n W ls lj cost v u)) ∧
    (∀ u d, tableauTopDP n ls lj cost 0 u d = cost 0 u d) ∧
    (∀ v u, IsDPStep n ls lj (tableauTopDP n ls lj cost v u)
      (cost (v + 1) u) (tableauTopDP n ls lj cost (v + 1) u)) ∧
    (∀ u d, tableauBottomDP n H ls lj cost (H - 1) u d = cost (H - 1) u d) ∧
    (∀ v u, v < H - 1 → IsDPStep n ls lj (tableauBottomDP n H ls lj cost (v + 1) u)
      (cost v u) (tableauBottomDP n H ls lj cost v u)) := by
  refine ⟨?_, ?_, ?_, ?_, ?_, ?_, ?_, ?_⟩
  · intro v d; rfl
  · intro v u
    exact computeDynamicStep_isDPStep n ls lj _ _ hn
  · intro v d
    show scanDP n ls lj (fun k => cost v (W - 1 - k)) (W - 1 - (W - 1)) d = _
    have h : W - 1 - (W - 1) = 0 := by omega
    rw [h]
    show cost v (W - 1 - 0) d = _
    rw [Nat.sub_zero]
  · intro v u hu
    have h1 : W - 1 - u = (W - 1 - (u + 1)) + 1 := by omega
    have h2 : W - 1 - ((W - 1 - (u + 1)) + 1) = u := by omega
    show IsDPStep n ls lj _ _ (scanDP n ls lj (fun k => cost v (W - 1 - k)) (W - 1 - u))
    rw [h1]
    show IsDPStep n ls lj _ _ (computeDynamicStep n ls lj
      (scanDP n ls lj (fun k => cost v (W - 1 - k)) (W - 1 - (u + 1)))
      (cost v (W - 1 - ((W - 1 - (u + 1)) + 1))))
    rw [h2]
    exact computeDynamicStep_isDPStep n ls lj _ _ hn
  · intro u d; rfl
  · intro v u
    exact computeDynamicStep_isDPStep n ls lj _ _ hn
  · intro u d
    show scanDP n ls lj (fun k => cost (H - 1 - k) u) (H - 1 - (H - 1)) d = _
    have h : H - 1 - (H - 1) = 0 := by omega
    rw [h]
    show cost (H - 1 - 0) u d = _
    rw [Nat.sub_zero]
  · intro v u hv
    have h1 : H - 1 - v = (H - 1 - (v + 1)) + 1 := by omega
    have h2 : H - 1 - ((H - 1 - (v + 1)) + 1) = v := by omega
    show IsDPStep n ls lj _ _ (scanDP n ls lj (fun k => cost (H - 1 - k) u) (H - 1 - v))
    rw [h1]
    show IsDPStep n ls lj _ _ (computeDynamicStep n ls lj
      (scanDP n ls lj (fun k => cost (H - 1 - k) u) (H - 1 - (v + 1)))
      (cost (H - 1 - ((H - 1 - (v + 1)) + 1)) u))
    rw [h2]
    exact computeDynamicStep_isDPStep n ls lj _ _ hn

/-- Witness for `dp_scan_first_and_step` at `n = 2`, a concrete cost volume. -/
theorem dp_scan_first_and_step_witness :
    2 ≤ 2 ∧
    (∀ v d, tableauLeftDP 2 1 3 (fun (v u d : ℕ) => (v + u + d : ℤ)) v 0 d
        = (fun (v u d : ℕ) => (v + u + d : ℤ)) v 0 d) ∧
    (∀ v u, IsDPStep 2 1 3 (tableauLeftDP 2 1 3 (fun (v u d : ℕ) => (v + u + d : ℤ)) v u)
      ((fun (v u d : ℕ) => (v + u + d : ℤ)) v (u + 1))
      (tableauLeftDP 2 1 3 (fun (v u d : ℕ) => (v + u + d : ℤ)) v (u + 1))) :=
  ⟨le_refl 2,
   (dp_scan_first_and_step 2 3 4 1 3 (fun (v u d : ℕ) => (v + u + d : ℤ)) (le_refl 2)).1,
   (dp_scan_first_and_step 2 3 4 1 3 (fun (v u d : ℕ) => (v + u + d : ℤ)) (le_refl 2)).2.1⟩

lemma bestCostAux_mono (c c' : ℕ → ℤ) (hc : ∀ d, c d ≤ c' d) :
    ∀ i, bestCostAux c i ≤ bestCostAux c' i := by
  intro i
  induction i with
  | zero => exact hc 0
  | succ i ih =>
      have h := hc (i + 1)
      show min (bestCostAux c i) (c (i + 1)) ≤ min (bestCostAux c' i) (c' (i + 1))
      omega

lemma bestCost_mono (n : ℕ) (c c' : ℕ → ℤ) (hc : ∀ d, c d ≤ c' d) :
    bestCost n c ≤ bestCost n c' :=
  bestCostAux_mono c c' hc (n - 1)

lemma computeDynamicStep_mono (n : ℕ) (ls lj lj' : ℤ) (inC inC' err : ℕ → ℤ)
    (hj : lj ≤ lj') (hc : ∀ d, inC d ≤ inC' d) :
    ∀ d, computeDynamicStep n ls lj inC err d ≤ computeDynamicStep n ls lj' inC' err d := by
  intro d
  have hb : bestCost n inC ≤ bestCost n inC' := bestCost_mono n inC inC' hc
  by_cases h0 : d = 0
  · subst h0
    rw [computeDynamicStep, if_pos rfl, computeDynamicStep, if_pos rfl]
    have h1 := hc 0
    have h2 := hc 1
    omega
  · by_cases h1 : d = n - 1
    · rw [computeDynamicStep, if_neg h0, if_pos h1, computeDynamicStep, if_neg h0, if_pos h1]
      have h2 := hc (n - 1)
      have h3 := hc (n - 2)
      omega
    · rw [computeDynamicStep, if_neg h0, if_neg h1, computeDynamicStep, if_neg h0, if_neg h1]
      have h2 := hc d
      have h3 := hc (d + 1)
      have h4 := hc (d - 1)
      omega

lemma scanDP_mono (n : ℕ) (ls lj lj' : ℤ) (cost : ℕ → ℕ → ℤ) (hj : lj ≤ lj') :
    ∀ k d, scanDP n ls lj cost k d ≤ scanDP n ls lj' cost k d := by
  intro k
  induction k with
  | zero => intro d; exact le_refl _
  | succ k ih =>
      intro d
      exact computeDynamicStep_mono n ls lj lj' _ _ _ hj ih d

/-- C7: for a fixed raw cost volume and penalties `lambdaJump = j1 ≤ j2`, every
entry of each of the four dynamic-programming tableaus computed with `j2` is
greater than or equal to the corresponding entry computed with `j1`. -/
theorem dp_lambdaJump_mono (n W H : ℕ) (ls j1 j2 : ℤ) (cost : ℕ → ℕ → ℕ → ℤ)
    (hj : j1 ≤ j2) :
    (∀ v u d, tableauLeftDP n ls j1 cost v u d ≤ tableauLeftDP n ls j2 cost v u d) ∧
    (∀ v u d, tableauRightDP n W ls j1 cost v u d ≤ tableauRightDP n W ls j2 cost v u d) ∧
    (∀ v u d, tableauTopDP n ls j1 cost v u d ≤ tableauTopDP n ls j2 cost v u d) ∧
    (∀ v u d, tableauBottomDP n H ls j1 cost v u d ≤ tableauBottomDP n H ls j2 cost v u d) := by
  refine ⟨?_, ?_, ?_, ?_⟩
  · intro v u d; exact scanDP_mono n ls j1 j2 _ hj u d
  · intro v u d; exact scanDP_mono n ls j1 j2 _ hj (W - 1 - u) d
  · intro v u d; exact scanDP_mono n ls j1 j2 _ hj v d
  · intro v u d; exact scanDP_mono n ls j1 j2 _ hj (H - 1 - v) d

/-- Witness for `dp_lambdaJump_mono` on a concrete cost volume and penalties. -/
theorem dp_lambdaJump_mono_witness :
    (1 : ℤ) ≤ 5 ∧
    (∀ v u d, tableauLeftDP 2 2 1 (fun (v u d : ℕ) => (v + u + d : ℤ)) v u d
      ≤ tableauLeftDP 2 2 5 (fun (v u d : ℕ) => (v + u + d : ℤ)) v u d) :=
  ⟨by norm_num,
   (dp_lambdaJump_mono 2 3 4 2 1 5 (fun (v u d : ℕ) => (v + u + d : ℤ)) (by norm_num)).1⟩

/-! ## Disparity selection (EnhancedStereo::reconstructDisparity) -/

/-- The fused per-pixel score of `reconstructDisparity`:
`dynRow1[d] + dynRow2[d] + dynRow3[d] + dynRow4[d] - 2 * errRow[d]`. -/
def fusedScore (t1 t2 t3 t4 err : ℕ → ℤ) (d : ℕ) : ℤ :=
  t1 d + t2 d + t3 d + t4 d - 2 * err d

/-- The selection loop of `reconstructDisparity` for one pixel, scanning
`d = 0, 1, ..., k-1`: the state is `(bestCost, bestDisp)`, initialized
`(100000, 0)`, updated whenever `bestCost > acc`. -/
def selectDisparityAux (score : ℕ → ℤ) : ℕ → ℤ × ℕ
  | 0 => (100000, 0)
  | k + 1 =>
      let p := selectDisparityAux score k
      if p.1 > score k then (score k, k) else p

/-- One pixel of `reconstructDisparity`: the selected disparity and its fused
score, from the four tableau rows and the raw cost row at that pixel. -/
def reconstructDisparityPixel (n : ℕ) (t1 t2 t3 t4 err : ℕ → ℤ) : ℤ × ℕ :=
  selectDisparityAux (fusedScore t1 t2 t3 t4 err) n

lemma selectDisparityAux_spec (score : ℕ → ℤ) :
    ∀ k, ((selectDisparityAux score k).1 = 100000 ∧ (selectDisparityAux score k).2 = 0 ∧
           ∀ d, d < k → 100000 ≤ score d) ∨
         ((selectDisparityAux score k).1 < 100000 ∧ (selectDisparityAux score k).2 < k ∧
           (selectDisparityAux score k).1 = score (selectDisparityAux score k).2 ∧
           (∀ d, d < k → (selectDisparityAux score k).1 ≤ score d) ∧
           (∀ d, d < (selectDisparityAux score k).2 → (selectDisparityAux score k).1 < score d)) := by
  intro k
  induction k with
  | zero => exact Or.inl ⟨rfl, rfl, fun d hd => absurd hd (Nat.not_lt_zero d)⟩
  | succ k ih =>
      by_cases hup : (selectDisparityAux score k).1 > score k
      · have hv : selectDisparityAux score (k + 1) = (score k, k) := by
          show (if (selectDisparityAux score k).1 > score k then (score k, k)
                else selectDisparityAux score k) = _
          rw [if_pos hup]
        have hv1 : (selectDisparityAux score (k + 1)).1 = score k := by rw [hv]
        have hv2 : (selectDisparityAux score (k + 1)).2 = k := by rw [hv]
        right
        rcases ih with ⟨h1, _h2, h3⟩ | ⟨h1, _h2, _h3, h4, _h5⟩
        · refine ⟨by omega, by omega, by rw [hv1, hv2], ?_, ?_⟩
          · intro d hd
            rcases Nat.lt_or_ge d k with h | h
            · have := h3 d h; omega
            · have : d = k := by omega
              subst this; omega
          · intro d hd
            rw [hv2] at hd
            have := h3 d (by omega)
            omega
        · refine ⟨by omega, by omega, by rw [hv1, hv2], ?_, ?_⟩
          · intro d hd
            rcases Nat.lt_or_ge d k with h | h
            · have := h4 d h; omega
            · have : d = k := by omega
              subst this; omega
          · intro d hd
            rw [hv2] at hd
            have := h4 d (by omega)
            omega
      · have hv : selectDisparityAux score (k + 1) = selectDisparityAux score k := by
          show (if (selectDisparityAux score k).1 > score k then (score k, k)
                else selectDisparityAux score k) = _
          rw [if_neg hup]
        have hv1 : (selectDisparityAux score (k + 1)).1 = (selectDisparityAux score k).1 := by
          rw [hv]
        have hv2 : (selectDisparityAux score (k + 1)).2 = (selectDisparityAux score k).2 := by
          rw [hv]
        rcases ih with ⟨h1, h2, h3⟩ | ⟨h1, h2, h3, h4, h5⟩
        · left
          refine ⟨by omega, by omega, ?_⟩
          intro d hd
          rcases Nat.lt_or_ge d k with h | h
          · exact h3 d h
          · have : d = k := by omega
            subst this; omega
        · right
          refine ⟨by omega, by omega, by rw [hv1, hv2]; exact h3, ?_, ?_⟩
          · intro d hd
            rcases Nat.lt_or_ge d k with h | h
            · have := h4 d h; omega
            · have : d = k := by omega
              subst this; omega
          · intro d hd
            rw [hv2] at hd
            rw [hv1]
            exact h5 d hd

/-- C1 counterexample: when every fused score of the pixel is at least the
initialization constant 100000 of `bestCost`, the selection loop never updates
and disparity 0 is returned even though it does not minimize the fused score.
Here the scores are 100001 at `d = 0` and 100000 at `d = 1`: disparity 0 is
selected, yet its fused score is strictly larger than the score at 1. -/
theorem reconstructDisparity_not_min_counterexample :
    (reconstructDisparityPixel 2 (fun d => if d = 0 then 100001 else 100000)
        (fun _ => 0) (fun _ => 0) (fun _ => 0) (fun _ => 0)).2 = 0 ∧
    ¬ (fusedScore (fun d => if d = 0 then 100001 else 100000)
        (fun _ => 0) (fun _ => 0) (fun _ => 0) (fun _ => 0) 0
      ≤ fusedScore (fun d => if d = 0 then 100001 else 100000)
        (fun _ => 0) (fun _ => 0) (fun _ => 0) (fun _ => 0) 1) := by
  constructor
  · rfl
  · decide

/-- C1 (amended): provided some disparity of the pixel has fused score below
the loop initialization constant 100000, `reconstructDisparity` selects a
disparity whose fused score `T_left + T_right + T_top + T_bottom - 2*rawCost`
is less than or equal to the fused score at every other disparity of the
pixel, and among the disparities attaining the minimum the smallest index is
selected. -/
theorem reconstructDisparity_selects_min (n : ℕ) (t1 t2 t3 t4 err : ℕ → ℤ)
    (h : ∃ d, d < n ∧ fusedScore t1 t2 t3 t4 err d < 100000) :
    (reconstructDisparityPixel n t1 t2 t3 t4 err).2 < n ∧
    (∀ d, d < n → fusedScore t1 t2 t3 t4 err (reconstructDisparityPixel n t1 t2 t3 t4 err).2
      ≤ fusedScore t1 t2 t3 t4 err d) ∧
    (∀ d, d < n → fusedScore t1 t2 t3 t4 err d
        = fusedScore t1 t2 t3 t4 err (reconstructDisparityPixel n t1 t2 t3 t4 err).2 →
      (reconstructDisparityPixel n t1 t2 t3 t4 err).2 ≤ d) := by
  rcases h with ⟨d0, hd0, hs⟩
  have hpix : reconstructDisparityPixel n t1 t2 t3 t4 err
      = selectDisparityAux (fusedScore t1 t2 t3 t4 err) n := rfl
  rcases selectDisparityAux_spec (fusedScore t1 t2 t3 t4 err) n with
    ⟨_h1, _h2, h3⟩ | ⟨_h1, h2, h3, h4, h5⟩
  · exact absurd hs (by have := h3 d0 hd0; omega)
  · rw [hpix]
    refine ⟨h2, ?_, ?_⟩
    · intro d hd
      have := h4 d hd
      omega
    · intro d hd heq
      by_contra hlt
      have hdsel : d < (selectDisparityAux (fusedScore t1 t2 t3 t4 err) n).2 := by omega
      have := h5 d hdsel
      omega

/-- Witness for `reconstructDisparity_selects_min`: scores `5, 3, 3, 7`
select disparity 1 (the smallest index attaining the minimum 3). -/
theorem reconstructDisparity_selects_min_witness :
    (∃ d, d < 4 ∧ fusedScore (fun (d : ℕ) => ([5, 3, 3, 7].getD d 0 : ℤ))
      (fun _ => 0) (fun _ => 0) (fun _ => 0) (fun _ => 0) d < 100000) ∧
    (reconstructDisparityPixel 4 (fun (d : ℕ) => ([5, 3, 3, 7].getD d 0 : ℤ))
      (fun _ => 0) (fun _ => 0) (fun _ => 0) (fun _ => 0)).2 < 4 :=
  ⟨⟨1, by norm_num, by decide⟩,
   (reconstructDisparity_selects_min 4 (fun (d : ℕ) => ([5, 3, 3, 7].getD d 0 : ℤ))
      (fun _ => 0) (fun _ => 0) (fun _ => 0) (fun _ => 0) ⟨1, by norm_num, by decide⟩).1⟩

/-! ## Curve-patch cost kernel (EnhancedStereo::computeCurveCost)

The descriptor (bilinear samples of image 1 along the epipolar tangent) and
the image-2 band (samples collected by walking the curve rasterizer) are
produced by collaborators whose sources are outside this translation unit
(`bilinear` and `CurveRasterizer`); the kernel below is therefore
parametrized by the two byte sequences `desc` and `samp`, exactly as the cost
loop of the source reads them.  The undefined-direction test `dir != dir`
(a NaN test on doubles) is modelled by an `Option` direction. -/

/-- `HALF_LENGTH = max(params.scale - 1, 1)`. -/
def halfLength (scale : ℤ) : ℤ := max (scale - 1) 1

/-- The matching weight kernel of `computeCurveCost`:
`weightVec[HALF_LENGTH] = HALF_LENGTH + 1` and, for `i < HALF_LENGTH`,
`weightVec[i] = weightVec[LENGTH - 1 - i] = i + 1`. -/
def weight (hl i : ℕ) : ℤ :=
  if i ≤ hl then (i : ℤ) + 1 else (2 * hl + 1 : ℤ) - i

/-- `normalizer = accumulate(weightVec.begin(), weightVec.end(), 0)`. -/
def normalizer (hl : ℕ) : ℤ := ∑ i in Finset.range (2 * hl + 1), weight hl i

/-- The inner loop of `computeCurveCost` for one pixel and one disparity `d`,
with `hl = HALF_LENGTH`: the bias is the truncated integer quotient of the
window-sum difference by `LENGTH = 2*hl + 1`, clamped to `[-maxBias, maxBias]`,
and the stored byte is `acc / normalizer` reduced modulo 256 by the
`uint8_t` store into the error buffer. -/
def curveCostEntry (hl : ℕ) (maxBias : ℤ) (desc samp : ℕ → ℤ) (d : ℕ) : ℤ :=
  let sum1 : ℤ := ∑ i in Finset.range (2 * hl + 1), desc i
  let sum2 : ℤ := ∑ i in Finset.range (2 * hl + 1), samp (d + i)
  let bias : ℤ := min maxBias (max (-maxBias) (Int.tdiv (sum2 - sum1) (2 * hl + 1)))
  let acc : ℤ := ∑ i in Finset.range (2 * hl + 1), |desc i - samp (d + i) + bias| * weight hl i
  (Int.tdiv acc (normalizer hl)) % 256

/-- One pixel of `computeCurveCost`: if the epipolar direction of the pixel is
undefined (`dir != dir`, i.e. NaN), every disparity gets cost 0; otherwise the
curve-patch kernel is evaluated. -/
def computeCurveCostPixel (scale : ℤ) (maxBias : ℤ) (dir : Option (ℚ × ℚ))
    (desc samp : ℕ → ℤ) (d : ℕ) : ℤ :=
  match dir with
  | none => 0
  | some _ => curveCostEntry (halfLength scale).toNat maxBias desc samp d

/-- C8: for every pixel whose epipolar direction is undefined (NaN), the
curve-patch cost kernel writes cost 0 for every disparity in `[0, dispMax)`. -/
theorem curveCost_undefined_direction_zero (scale maxBias : ℤ) (desc samp : ℕ → ℤ)
    (dispMax : ℕ) :
    ∀ d, d < dispMax → computeCurveCostPixel scale maxBias none desc samp d = 0 := by
  intro d _
  rfl

/-- Witness for `curveCost_undefined_direction_zero` at concrete inputs. -/
theorem curveCost_undefined_direction_zero_witness :
    computeCurveCostPixel 3 10 none (fun _ => 7) (fun _ => 9) 0 = 0 :=
  curveCost_undefined_direction_zero 3 10 (fun _ => 7) (fun _ => 9) 1 0 (by norm_num)

/-- C6 counterexample: the stored byte cost is the normalized weighted sum
reduced modulo 256, not the normalized weighted sum itself.  With
`scale = 3` (half-length 2, weights 1 2 3 2 1, normalizer 9), `maxBias = 10`,
descriptor `255 255 0 0 255` and image-2 window `0 0 255 255 0`, the bias is
`-10` and the weighted sum of absolute corrected differences is 2305, so the
normalized value is `2305 / 9 = 256`, but the byte written to the error
buffer is `256 % 256 = 0`. -/
theorem curveCost_overflow_counterexample :
    computeCurveCostPixel 3 10 (some (1, 0))
      (fun i => ([255, 255, 0, 0, 255].getD i 0 : ℤ))
      (fun i => ([0, 0, 255, 255, 0].getD i 0 : ℤ)) 0 = 0 ∧
    Int.tdiv (∑ i in Finset.range 5,
        |(fun i => ([255, 255, 0, 0, 255].getD i 0 : ℤ)) i
          - (fun i => ([0, 0, 255, 255, 0].getD i 0 : ℤ)) (0 + i) + (-10)| * weight 2 i)
      (normalizer 2) = 256 := by
  constructor
  · decide
  · decide

/-- C6 (amended): in the curve-patch cost kernel, for every pixel with a
defined epipolar direction and every disparity `d`, the half-length is
`max(scale - 1, 1)`; the weight kernel over the window `[-L, L]` rises
linearly to `L + 1` at the center and is symmetric; the brightness bias is
the truncated quotient of (image-2 window sum minus descriptor sum) by the
window length `2L + 1`, clamped to `[-maxBias, maxBias]`; and the stored byte
cost is the weight-sum-normalized weighted sum of absolute bias-corrected
differences between the descriptor and the image-2 band window shifted by
`d`, reduced modulo 256 by the byte store (hence equal to the normalized sum
whenever that sum is at most 255). -/
theorem curveCost_kernel_spec (scale maxBias : ℤ) (dir : ℚ × ℚ) (desc samp : ℕ → ℤ)
    (d : ℕ) (hl : ℕ) (hhl : hl = (halfLength scale).toNat) :
    (halfLength scale = max (scale - 1) 1) ∧
    (∀ i, i ≤ hl → weight hl i = (i : ℤ) + 1) ∧
    (weight hl hl = (hl : ℤ) + 1) ∧
    (∀ i, i ≤ 2 * hl → weight hl (2 * hl - i) = weight hl i) ∧
    (computeCurveCostPixel scale maxBias (some dir) desc samp d =
      (Int.tdiv (∑ i in Finset.range (2 * hl + 1),
          |desc i - samp (d + i)
            + min maxBias (max (-maxBias)
                (Int.tdiv ((∑ i in Finset.range (2 * hl + 1), samp (d + i))
                  - (∑ i in Finset.range (2 * hl + 1), desc i)) (2 * hl + 1)))|
          * weight hl i)
        (normalizer hl)) % 256) := by
  subst hhl
  refine ⟨rfl, ?_, ?_, ?_, rfl⟩
  · intro i hi
    rw [weight, if_pos hi]
  · rw [weight, if_pos (le_refl _)]
  · intro i hi
    by_cases h : i ≤ (halfLength scale).toNat
    · by_cases h2 : 2 * (halfLength scale).toNat - i ≤ (halfLength scale).toNat
      · rw [weight, if_pos h2, weight, if_pos h]
        omega
      · rw [weight, if_neg h2, weight, if_pos h]
        omega
    · have h2 : 2 * (halfLength scale).toNat - i ≤ (halfLength scale).toNat := by omega
      rw [weight, if_pos h2, weight, if_neg h]
      omega

/-- Witness for `curveCost_kernel_spec` at `scale = 3`. -/
theorem curveCost_kernel_spec_witness :
    (2 : ℕ) = (halfLength 3).toNat ∧ halfLength 3 = max (3 - 1) 1 :=
  ⟨by decide,
   (curveCost_kernel_spec 3 10 (1, 0) (fun _ => 0) (fun _ => 0) 0 2 (by decide)).1⟩

/-! ## Triangulation (EnhancedStereo::triangulate) and range computation
    (EnhancedStereo::computeDistance)

The cameras enter only through the virtual `reconstructPoint` capability of
the abstract camera interface (`ICamera`): a pixel is mapped either to a ray
or to a failure, modelled as `Option`.  `Transform12` enters through its
rotation matrix and translation. -/

/-- Dot product of two 3-vectors (Eigen `dot`). -/
def dot3 (u v : Fin 3 → ℚ) : ℚ := u 0 * v 0 + u 1 * v 1 + u 2 * v 2

/-- Matrix-vector product of a 3x3 matrix and a 3-vector. -/
def mulVec3 (R : Fin 3 → Fin 3 → ℚ) (v : Fin 3 → ℚ) : Fin 3 → ℚ :=
  fun i => R i 0 * v 0 + R i 1 * v 1 + R i 2 * v 2

/-- `delta = -v1v1 * v2v2 + v1v2 * v1v2`, the determinant of the 2x2
normal-equation system of `triangulate`. -/
def tdelta (v1 v2 : Fin 3 → ℚ) : ℚ :=
  -(dot3 v1 v1) * dot3 v2 v2 + dot3 v1 v2 * dot3 v1 v2

/-- `l1 = (-tv1 * v2v2 + tv2 * v1v2) / delta`. -/
def tl1 (t v1 v2 : Fin 3 → ℚ) : ℚ :=
  (-(dot3 t v1) * dot3 v2 v2 + dot3 t v2 * dot3 v1 v2) / tdelta v1 v2

/-- `l2 = (tv2 * v1v1 - tv1 * v1v2) / delta`. -/
def tl2 (t v1 v2 : Fin 3 → ℚ) : ℚ :=
  (dot3 t v2 * dot3 v1 v1 - dot3 t v1 * dot3 v1 v2) / tdelta v1 v2

/-- `EnhancedStereo::triangulate`: reconstruct the two rays through the
camera capability, rotate the second into the first frame, and solve the
closest-approach system; the result is `(success, X)`. -/
def triangulate (rec1 rec2 : ℚ → ℚ → Option (Fin 3 → ℚ))
    (R : Fin 3 → Fin 3 → ℚ) (t : Fin 3 → ℚ)
    (x1 y1 x2 y2 : ℚ) : Bool × (Fin 3 → ℚ) :=
  match rec1 x1 y1, rec2 x2 y2 with
  | some v1, some v2r =>
      let v2 := mulVec3 R v2r
      if |tdelta v1 v2| < 1 / 10 ^ 10 then (false, fun _ => 0)
      else (true, fun i => (v1 i * tl1 t v1 v2 + t i + v2 i * tl2 t v1 v2) * (1 / 2))
  | _, _ => (false, fun _ => 0)

lemma triangulate_failure_iff (rec1 rec2 : ℚ → ℚ → Option (Fin 3 → ℚ))
    (R : Fin 3 → Fin 3 → ℚ) (t : Fin 3 → ℚ) (x1 y1 x2 y2 : ℚ) :
    ((triangulate rec1 rec2 R t x1 y1 x2 y2).1 = false ∧
      (triangulate rec1 rec2 R t x1 y1 x2 y2).2 = fun _ => 0) ↔
      (rec1 x1 y1 = none ∨ rec2 x2 y2 = none ∨
        ∃ v1 v2r, rec1 x1 y1 = some v1 ∧ rec2 x2 y2 = some v2r ∧
          |tdelta v1 (mulVec3 R v2r)| < 1 / 10 ^ 10) := by
  constructor
  · intro h
    rcases h1 : rec1 x1 y1 with _ | v1
    · exact Or.inl rfl
    rcases h2 : rec2 x2 y2 with _ | v2r
    · exact Or.inr (Or.inl rfl)
    refine Or.inr (Or.inr ⟨v1, v2r, rfl, rfl, ?_⟩)
    by_contra hd
    have hv : triangulate rec1 rec2 R t x1 y1 x2 y2
        = (true, fun i => (v1 i * tl1 t v1 (mulVec3 R v2r) + t i
            + (mulVec3 R v2r) i * tl2 t v1 (mulVec3 R v2r)) * (1 / 2)) := by
      rw [triangulate, h1, h2]
      exact if_neg hd
    rw [hv] at h
    exact Bool.true_eq_false.mp h.1
  · intro h
    rcases h1 : rec1 x1 y1 with _ | v1
    · constructor
      · rw [triangulate, h1]
      · rw [triangulate, h1]
    rcases h2 : rec2 x2 y2 with _ | v2r
    · constructor
      · rw [triangulate, h1, h2]
      · rw [triangulate, h1, h2]
    have hd : |tdelta v1 (mulVec3 R v2r)| < 1 / 10 ^ 10 := by
      rcases h with h | h | ⟨w1, w2, hw1, hw2, hd⟩
      · rw [h1] at h; exact absurd h (by simp)
      · rw [h2] at h; exact absurd h (by simp)
      · rw [h1] at hw1
        rw [h2] at hw2
        rw [Option.some_inj.mp hw1, Option.some_inj.mp hw2]
        exact hd
    have hv : triangulate rec1 rec2 R t x1 y1 x2 y2 = (false, fun _ => 0) := by
      rw [triangulate, h1, h2]
      exact if_pos hd
    rw [hv]
    exact ⟨rfl, rfl⟩

lemma triangulate_success_midpoint (rec1 rec2 : ℚ → ℚ → Option (Fin 3 → ℚ))
    (R : Fin 3 → Fin 3 → ℚ) (t : Fin 3 → ℚ) (x1 y1 x2 y2 : ℚ)
    (v1 v2r : Fin 3 → ℚ) (h1 : rec1 x1 y1 = some v1) (h2 : rec2 x2 y2 = some v2r)
    (hd : ¬ (|tdelta v1 (mulVec3 R v2r)| < 1 / 10 ^ 10)) :
    triangulate rec1 rec2 R t x1 y1 x2 y2
      = (true, fun i => (v1 i * tl1 t v1 (mulVec3 R v2r) + t i
          + (mulVec3 R v2r) i * tl2 t v1 (mulVec3 R v2r)) * (1 / 2)) := by
  rw [triangulate, h1, h2]
  exact if_neg hd

/-- C3: `triangulate` returns `false` with the zero vector exactly when a ray
is unreconstructable or the determinant `delta = -(v1.v1)(v2.v2) + (v1.v2)^2`
has magnitude below `1e-10`; in every other case it returns `true` with the
midpoint `(v1*l1 + t + v2*l2) * 0.5` of the closest-approach points of the
two rays. -/
theorem triangulate_spec (rec1 rec2 : ℚ → ℚ → Option (Fin 3 → ℚ))
    (R : Fin 3 → Fin 3 → ℚ) (t : Fin 3 → ℚ) (x1 y1 x2 y2 : ℚ) :
    (((triangulate rec1 rec2 R t x1 y1 x2 y2).1 = false ∧
      (triangulate rec1 rec2 R t x1 y1 x2 y2).2 = fun _ => 0) ↔
      (rec1 x1 y1 = none ∨ rec2 x2 y2 = none ∨
        ∃ v1 v2r, rec1 x1 y1 = some v1 ∧ rec2 x2 y2 = some v2r ∧
          |tdelta v1 (mulVec3 R v2r)| < 1 / 10 ^ 10)) ∧
    (∀ v1 v2r, rec1 x1 y1 = some v1 → rec2 x2 y2 = some v2r →
      ¬ (|tdelta v1 (mulVec3 R v2r)| < 1 / 10 ^ 10) →
      triangulate rec1 rec2 R t x1 y1 x2 y2
        = (true, fun i => (v1 i * tl1 t v1 (mulVec3 R v2r) + t i
            + (mulVec3 R v2r) i * tl2 t v1 (mulVec3 R v2r)) * (1 / 2))) :=
  ⟨triangulate_failure_iff rec1 rec2 R t x1 y1 x2 y2,
   fun v1 v2r h1 h2 hd =>
     triangulate_success_midpoint rec1 rec2 R t x1 y1 x2 y2 v1 v2r h1 h2 hd⟩

/-- Witness for `triangulate_success_midpoint` and the failure side of
`triangulate_spec` at concrete cameras: `v1 = (0,0,1)` and `v2 = (1,0,1)`
give determinant `-1`, so triangulation succeeds; a camera that fails to
reconstruct gives `(false, 0)`. -/
theorem triangulate_spec_witness :
    ((fun _ _ => some ![0, 0, 1] : ℚ → ℚ → Option (Fin 3 → ℚ)) 0 0 = some ![0, 0, 1]) ∧
    (triangulate (fun _ _ => some ![0, 0, 1]) (fun _ _ => some ![1, 0, 1])
      (fun i j => if i = j then 1 else 0) ![1, 0, 0] 0 0 5 5).1 = true ∧
    ((triangulate (fun _ _ => none) (fun _ _ => some ![1, 0, 1])
      (fun i j => if i = j then 1 else 0) ![1, 0, 0] 0 0 5 5).1 = false ∧
     (triangulate (fun _ _ => none) (fun _ _ => some ![1, 0, 1])
      (fun i j => if i = j then 1 else 0) ![1, 0, 0] 0 0 5 5).2 = fun _ => 0) := by
  refine ⟨rfl, ?_, ?_⟩
  · have h := (triangulate_spec (fun _ _ => some ![0, 0, 1])
      (fun _ _ => some ![1, 0, 1]) (fun i j => if i = j then 1 else 0) ![1, 0, 0]
      0 0 5 5).2 ![0, 0, 1] ![1, 0, 1] rfl rfl (by
        rw [show mulVec3 (fun i j => if i = j then (1 : ℚ) else 0) ![1, 0, 1] = ![1, 0, 1] by
          funext i
          fin_cases i <;> simp [mulVec3]
        ]
        rw [show tdelta ![0, 0, 1] ![1, 0, 1] = -1 by
          simp [tdelta, dot3]
        ]
        norm_num)
    rw [h]
  · exact (triangulate_spec (fun _ _ => none) (fun _ _ => some ![1, 0, 1])
      (fun i j => if i = j then 1 else 0) ![1, 0, 0] 0 0 5 5).1.mpr (Or.inl rfl)

/-- Euclidean norm of a 3-vector (`X.norm()` of Eigen). -/
noncomputable def norm3 (v : Fin 3 → ℚ) : ℝ :=
  Real.sqrt ((v 0 * v 0 + v 1 * v 1 + v 2 * v 2 : ℚ))

/-- `EnhancedStereo::computeDistance(u, v)` for one pixel.  The stored
disparity and the image-1 point `pt1` of the pixel are taken as inputs.  The
curve rasterizer (`getCurveRasteriser` followed by `steps(disparity)`) lives
outside this translation unit; `rasterAt n` stands for the rasterizer pixel
after `steps(n)`, as used by the code. -/
noncomputable def computeDistance (rec1 rec2 : ℚ → ℚ → Option (Fin 3 → ℚ))
    (R : Fin 3 → Fin 3 → ℚ) (t : Fin 3 → ℚ) (rasterAt : ℤ → ℤ × ℤ)
    (pt1 : ℚ × ℚ) (maxDistance : ℝ) (disparity : ℤ) : ℝ :=
  if disparity ≤ 0 then maxDistance
  else
    let p := rasterAt disparity
    let r := triangulate rec1 rec2 R t pt1.1 pt1.2 (p.1 : ℚ) (p.2 : ℚ)
    if r.1 then norm3 r.2 else 0

/-- C4: `computeDistance` returns the `maxDistance` sentinel whenever the
stored disparity is at most 0; for a positive disparity it triangulates the
pixel pair obtained by stepping the curve rasterizer by exactly that
disparity, returns 0 when triangulation fails, and otherwise returns the
Euclidean norm of the triangulated point. -/
theorem computeDistance_spec (rec1 rec2 : ℚ → ℚ → Option (Fin 3 → ℚ))
    (R : Fin 3 → Fin 3 → ℚ) (t : Fin 3 → ℚ) (rasterAt : ℤ → ℤ × ℤ)
    (pt1 : ℚ × ℚ) (maxDistance : ℝ) (disparity : ℤ) :
    (disparity ≤ 0 →
      computeDistance rec1 rec2 R t rasterAt pt1 maxDistance disparity = maxDistance) ∧
    (0 < disparity →
      (triangulate rec1 rec2 R t pt1.1 pt1.2 ((rasterAt disparity).1 : ℚ)
        ((rasterAt disparity).2 : ℚ)).1 = false →
      computeDistance rec1 rec2 R t rasterAt pt1 maxDistance disparity = 0) ∧
    (0 < disparity → ∀ X : Fin 3 → ℚ,
      triangulate rec1 rec2 R t pt1.1 pt1.2 ((rasterAt disparity).1 : ℚ)
        ((rasterAt disparity).2 : ℚ) = (true, X) →
      computeDistance rec1 rec2 R t rasterAt pt1 maxDistance disparity = norm3 X) := by
  refine ⟨?_, ?_, ?_⟩
  · intro h
    rw [computeDistance, if_pos h]
  · intro h hfail
    rw [computeDistance, if_neg (by omega)]
    show (if (triangulate rec1 rec2 R t pt1.1 pt1.2 _ _).1 then _ else (0 : ℝ)) = 0
    rw [hfail]
    rfl
  · intro h X hX
    rw [computeDistance, if_neg (by omega)]
    show (if (triangulate rec1 rec2 R t pt1.1 pt1.2 _ _).1
          then norm3 (triangulate rec1 rec2 R t pt1.1 pt1.2 _ _).2 else (0 : ℝ)) = norm3 X
    rw [hX]
    rfl

/-- Witness for `computeDistance_spec`: sentinel at disparity 0, zero on
triangulation failure, and norm of the triangulated point on success. -/
theorem computeDistance_spec_witness :
    ((0 : ℤ) ≤ 0 ∧
      computeDistance (fun _ _ => some ![0, 0, 1]) (fun _ _ => some ![1, 0, 1])
        (fun i j => if i = j then 1 else 0) ![1, 0, 0] (fun _ => (5, 5)) (0, 0) 100 0 = 100) ∧
    ((0 : ℤ) < 3 ∧
      computeDistance (fun _ _ => none) (fun _ _ => some ![1, 0, 1])
        (fun i j => if i = j then 1 else 0) ![1, 0, 0] (fun _ => (5, 5)) (0, 0) 100 3 = 0) := by
  constructor
  · exact ⟨le_refl 0,
      (computeDistance_spec (fun _ _ => some ![0, 0, 1]) (fun _ _ => some ![1, 0, 1])
        (fun i j => if i = j then 1 else 0) ![1, 0, 0] (fun _ => (5, 5)) (0, 0) 100 0).1
        (le_refl 0)⟩
  · refine ⟨by norm_num, ?_⟩
    exact (computeDistance_spec (fun _ _ => none) (fun _ _ => some ![1, 0, 1])
        (fun i j => if i = j then 1 else 0) ![1, 0, 0] (fun _ => (5, 5)) (0, 0) 100 3).2.1
        (by norm_num) rfl

/-! ## Epipolar curve table (EnhancedEpipolar constructor, index, getCurve)

The orthonormal basis `(xBase, yBase, zBase)` and the rotated baseline
`t21n = R21 * zBase` are built by the constructor from the pose using
normalization (a square root); they enter the per-bin curve computation only
as values, so the construction below is parametrized by them.  The epipole is
produced by the camera projection capability (`cam2.projectPoint(t21n)`),
outside this translation unit, and enters as a value too. -/

/-- The implicit quadratic curve `kuu u^2 + kuv u v + kvv v^2 + ku u + kv v + k1 = 0`. -/
structure Polynomial2 where
  kuu : ℚ
  kuv : ℚ
  kvv : ℚ
  ku : ℚ
  kv : ℚ
  k1 : ℚ
  deriving DecidableEq

/-- Value of the implicit quadratic curve at pixel `(u, v)`. -/
def evalPolynomial2 (s : Polynomial2) (u v : ℚ) : ℚ :=
  s.kuu * u * u + s.kuv * u * v + s.kvv * v * v + s.ku * u + s.kv * v + s.k1

/-- Cross product of two 3-vectors (Eigen `cross`). -/
def cross3 (u v : Fin 3 → ℚ) : Fin 3 → ℚ :=
  ![u 1 * v 2 - u 2 * v 1, u 2 * v 0 - u 0 * v 2, u 0 * v 1 - u 1 * v 0]

/-- The direction of bin `idx` of the `EnhancedEpipolar` constructor, in the
base frame: for `idx < numberSteps/2` the tangent branch
`X = xBase + (step*idx - 1) * yBase`, otherwise the cotangent branch
`X = (step*(numberSteps/2 - idx) + 1) * xBase + yBase`, with
`step = 4 / numberSteps`. -/
def epipolarDirection (numberSteps : ℕ) (xBase yBase : Fin 3 → ℚ) (idx : ℕ) : Fin 3 → ℚ :=
  if idx < numberSteps / 2 then
    fun i => xBase i + ((4 / numberSteps) * idx - 1) * yBase i
  else
    fun i => ((4 / numberSteps) * (((numberSteps / 2 : ℕ) : ℚ) - (idx : ℚ)) + 1) * xBase i
      + yBase i

/-- The branch guard `CCfufv / (AA + BB) < 0.5` of the constructor, with the
semantics of the C++ double division at a zero denominator: when
`AA + BB = 0` the quotient is `-inf`, `NaN` or `+inf` according to the sign
of `CCfufv`, and the comparison with `0.5` holds only in the `-inf` case,
that is, only when `CCfufv < 0`; for a nonzero denominator it is the exact
quotient comparison. -/
def lineGuard (AABB CCfufv : ℚ) : Prop :=
  if AABB = 0 then CCfufv < 0 else CCfufv / AABB < 1 / 2

instance (a b : ℚ) : Decidable (lineGuard a b) :=
  decidable_of_iff _ (by rw [lineGuard])

/-- The loop body of the `EnhancedEpipolar` constructor for one rotated
direction `X`: form the plane normal `(A,B,C) = X × t21n` and fill the
quadratic curve, either the degenerate straight line through the projection
center (when `C^2 fu fv / (A^2 + B^2) < 0.5`, evaluated as `lineGuard`) or
the closed-form quadratic whose constant `k1` makes the curve pass through
the epipole. -/
def makeEpipolarCurve (alpha beta fu fv u0 v0 : ℚ) (epipole : ℚ × ℚ)
    (X t21n : Fin 3 → ℚ) : Polynomial2 :=
  let A := cross3 X t21n 0
  let B := cross3 X t21n 1
  let C := cross3 X t21n 2
  let gamma := 1 - alpha
  let ag := alpha - gamma
  let a2b := alpha * alpha * beta
  let fufv := fu * fv
  let fufu := fu * fu
  let fvfv := fv * fv
  let AA := A * A
  let BB := B * B
  let CC := C * C
  let CCfufv := CC * fufv
  if lineGuard (AA + BB) CCfufv then
    { kuu := 0, kuv := 0, kvv := 0, ku := A / fu, kv := B / fv,
      k1 := -u0 * A / fu - v0 * B / fv }
  else
    let kuu := (AA * ag + CC * a2b) / (CC * fufu)
    let kuv := 2 * A * B * ag / CCfufv
    let kvv := (BB * ag + CC * a2b) / (CC * fvfv)
    let ku := 2 * (-(AA * fv * u0 + A * B * fu * v0) * ag - A * C * fufv * gamma
        - CC * a2b * fv * u0) / (CCfufv * fu)
    let kv := 2 * (-(BB * fu * v0 + A * B * fv * u0) * ag - B * C * fufv * gamma
        - CC * a2b * fu * v0) / (CCfufv * fv)
    { kuu := kuu, kuv := kuv, kvv := kvv, ku := ku, kv := kv,
      k1 := -(kuu * epipole.1 * epipole.1 + kuv * epipole.1 * epipole.2
        + kvv * epipole.2 * epipole.2 + ku * epipole.1 + kv * epipole.2) }

/-- The curve stored at bin `idx` by the constructor: the bin direction is
rotated into the camera-2 frame (`X = R21 * direction`) and fed to the loop
body. -/
def epipolarCurveAt (alpha beta fu fv u0 v0 : ℚ) (epipole : ℚ × ℚ)
    (R21 : Fin 3 → Fin 3 → ℚ) (t21n xBase yBase : Fin 3 → ℚ)
    (numberSteps idx : ℕ) : Polynomial2 :=
  makeEpipolarCurve alpha beta fu fv u0 v0 epipole
    (mulVec3 R21 (epipolarDirection numberSteps xBase yBase idx)) t21n

/-- The curve table `epipolarVec`: one curve per bin `idx` in
`[0, numberSteps)`, followed by a duplicate of entry 0
(`epipolarVec.emplace_back(epipolarVec.front())`). -/
def epipolarTable (alpha beta fu fv u0 v0 : ℚ) (epipole : ℚ × ℚ)
    (R21 : Fin 3 → Fin 3 → ℚ) (t21n xBase yBase : Fin 3 → ℚ)
    (numberSteps : ℕ) : List Polynomial2 :=
  (List.range numberSteps).map
    (epipolarCurveAt alpha beta fu fv u0 v0 epipole R21 t21n xBase yBase numberSteps)
  ++ [epipolarCurveAt alpha beta fu fv u0 v0 epipole R21 t21n xBase yBase numberSteps 0]

/-- C5: for every direction bin of the `EnhancedEpipolar` constructor, if the
double evaluation of `C^2 fu fv / (A^2 + B^2) < 0.5` holds (captured by
`lineGuard`, including the infinite and NaN quotients at `A = B = 0`) the
stored curve is the straight line `kuu = kuv = kvv = 0`, `ku = A/fu`,
`kv = B/fv`, `k1 = -u0 A/fu - v0 B/fv`; otherwise `k1` is chosen so that the
stored quadratic curve evaluates to exactly zero at the epipole pixel. -/
theorem epipolar_curve_construction (alpha beta fu fv u0 v0 : ℚ) (epipole : ℚ × ℚ)
    (R21 : Fin 3 → Fin 3 → ℚ) (t21n xBase yBase : Fin 3 → ℚ) (numberSteps idx : ℕ) :
    (lineGuard
        (cross3 (mulVec3 R21 (epipolarDirection numberSteps xBase yBase idx)) t21n 0
          * cross3 (mulVec3 R21 (epipolarDirection numberSteps xBase yBase idx)) t21n 0
        + cross3 (mulVec3 R21 (epipolarDirection numberSteps xBase yBase idx)) t21n 1
          * cross3 (mulVec3 R21 (epipolarDirection numberSteps xBase yBase idx)) t21n 1)
        (cross3 (mulVec3 R21 (epipolarDirection numberSteps xBase yBase idx)) t21n 2
          * cross3 (mulVec3 R21 (epipolarDirection numberSteps xBase yBase idx)) t21n 2
          * (fu * fv)) →
      epipolarCurveAt alpha beta fu fv u0 v0 epipole R21 t21n xBase yBase numberSteps idx
        = { kuu := 0, kuv := 0, kvv := 0,
            ku := cross3 (mulVec3 R21 (epipolarDirection numberSteps xBase yBase idx)) t21n 0
              / fu,
            kv := cross3 (mulVec3 R21 (epipolarDirection numberSteps xBase yBase idx)) t21n 1
              / fv,
            k1 := -u0 * cross3 (mulVec3 R21 (epipolarDirection numberSteps xBase yBase idx))
                t21n 0 / fu
              - v0 * cross3 (mulVec3 R21 (epipolarDirection numberSteps xBase yBase idx))
                t21n 1 / fv }) ∧
    (¬ lineGuard
        (cross3 (mulVec3 R21 (epipolarDirection numberSteps xBase yBase idx)) t21n 0
          * cross3 (mulVec3 R21 (epipolarDirection numberSteps xBase yBase idx)) t21n 0
        + cross3 (mulVec3 R21 (epipolarDirection numberSteps xBase yBase idx)) t21n 1
          * cross3 (mulVec3 R21 (epipolarDirection numberSteps xBase yBase idx)) t21n 1)
        (cross3 (mulVec3 R21 (epipolarDirection numberSteps xBase yBase idx)) t21n 2
          * cross3 (mulVec3 R21 (epipolarDirection numberSteps xBase yBase idx)) t21n 2
          * (fu * fv)) →
      evalPolynomial2
        (epipolarCurveAt alpha beta fu fv u0 v0 epipole R21 t21n xBase yBase numberSteps idx)
        epipole.1 epipole.2 = 0) := by
  constructor
  · intro hcond
    show makeEpipolarCurve alpha beta fu fv u0 v0 epipole _ t21n = _
    rw [makeEpipolarCurve]
    exact if_pos hcond
  · intro hcond
    show evalPolynomial2 (makeEpipolarCurve alpha beta fu fv u0 v0 epipole _ t21n) _ _ = 0
    rw [makeEpipolarCurve, if_neg hcond]
    rw [evalPolynomial2]
    ring

/-- Witness for `epipolar_curve_construction`: with identity rotation,
direction `(1, 0, 1)` (from `xBase = (1,0,1)`, `yBase = 0`, bin 0 of 2 bins)
and baseline direction `(0, 1, 0)`, the plane normal is `(-1, 0, 1)`; with
`fu = fv = 2` the ratio is `4`, so the quadratic branch is taken and the
curve vanishes at the epipole `(3, 5)`; with `fu = fv = 1/2` the ratio is
`1/4` and the straight-line branch is taken.  The third conjunct exercises
the zero-denominator corner: `xBase = (0,0,1)`, `yBase = (0,-1,0)`,
`t21n = (1,0,0)`, 4 bins, bin 3 gives the direction `(0,-1,0)` and the plane
normal `(0,0,1)`, so `A = B = 0` with `C^2 fu fv = 4 > 0` (a `+inf` quotient
in doubles): the guard fails and the quadratic through the epipole is
stored. -/
theorem epipolar_curve_construction_witness :
    evalPolynomial2
      (epipolarCurveAt 1 2 2 2 10 20 (3, 5) (fun i j => if (i : ℕ) = (j : ℕ) then 1 else 0)
        ![0, 1, 0] ![1, 0, 1] ![0, 0, 0] 2 0) 3 5 = 0 ∧
    (epipolarCurveAt 1 2 (1/2) (1/2) 10 20 (3, 5) (fun i j => if (i : ℕ) = (j : ℕ) then 1 else 0)
        ![0, 1, 0] ![1, 0, 1] ![0, 0, 0] 2 0).kuu = 0 ∧
    evalPolynomial2
      (epipolarCurveAt 1 2 2 2 10 20 (3, 5) (fun i j => if (i : ℕ) = (j : ℕ) then 1 else 0)
        ![1, 0, 0] ![0, 0, 1] ![0, -1, 0] 4 3) 3 5 = 0 := by
  have hdir : mulVec3 (fun i j => if (i : ℕ) = (j : ℕ) then (1 : ℚ) else 0)
      (epipolarDirection 2 ![1, 0, 1] ![0, 0, 0] 0) = ![1, 0, 1] := by
    funext i
    fin_cases i <;>
      norm_num [mulVec3, epipolarDirection, Matrix.cons_val_zero, Matrix.cons_val_one,
        Matrix.head_cons]
  have hplane : cross3 ![1, 0, 1] ![0, 1, 0] = ![-1, 0, 1] := by
    funext i
    fin_cases i <;>
      norm_num [cross3, Matrix.cons_val_zero, Matrix.cons_val_one, Matrix.head_cons]
  constructor
  · refine (epipolar_curve_construction 1 2 2 2 10 20 (3, 5)
      (fun i j => if (i : ℕ) = (j : ℕ) then 1 else 0) ![0, 1, 0] ![1, 0, 1] ![0, 0, 0] 2 0).2 ?_
    rw [hdir, hplane]
    norm_num [lineGuard, Matrix.cons_val_zero, Matrix.cons_val_one, Matrix.head_cons]
  · constructor
    · have h := (epipolar_curve_construction 1 2 (1/2) (1/2) 10 20 (3, 5)
        (fun i j => if (i : ℕ) = (j : ℕ) then 1 else 0) ![0, 1, 0] ![1, 0, 1] ![0, 0, 0] 2 0).1
        (by
          rw [hdir, hplane]
          norm_num [lineGuard, Matrix.cons_val_zero, Matrix.cons_val_one, Matrix.head_cons])
      rw [h]
    · have hdir2 : mulVec3 (fun i j => if (i : ℕ) = (j : ℕ) then (1 : ℚ) else 0)
          (epipolarDirection 4 ![0, 0, 1] ![0, -1, 0] 3) = ![0, -1, 0] := by
        funext i
        fin_cases i <;>
          norm_num [mulVec3, epipolarDirection, Matrix.cons_val_zero, Matrix.cons_val_one,
            Matrix.head_cons]
      have hplane2 : cross3 ![0, -1, 0] ![1, 0, 0] = ![0, 0, 1] := by
        funext i
        fin_cases i <;>
          norm_num [cross3, Matrix.cons_val_zero, Matrix.cons_val_one, Matrix.head_cons]
      refine (epipolar_curve_construction 1 2 2 2 10 20 (3, 5)
        (fun i j => if (i : ℕ) = (j : ℕ) then 1 else 0) ![1, 0, 0] ![0, 0, 1] ![0, -1, 0]
        4 3).2 ?_
      rw [hdir2, hplane2]
      norm_num [lineGuard, Matrix.cons_val_zero, Matrix.cons_val_one, Matrix.head_cons]

/-- The C `round` function (half away from zero), through which the result of
`EnhancedEpipolar::index` is converted to `int`. -/
def croundQ (q : ℚ) : ℤ := if q < 0 then -⌊-q + 1 / 2⌋ else ⌊q + 1 / 2⌋

/-- `EnhancedEpipolar::index`: decompose the ray on `(xBase, yBase)`; below
the degeneracy threshold return bin 0; otherwise pick the tangent or the
cotangent branch by comparing `|c|` and `|s|` and round to the nearest bin. -/
def indexFn (nSteps : ℕ) (xBase yBase X : Fin 3 → ℚ) : ℤ :=
  if |dot3 X xBase| + |dot3 X yBase| < 1 / 10000 then 0
  else if |dot3 X yBase| < |dot3 X xBase| then
    croundQ ((dot3 X yBase / dot3 X xBase + 1) / (4 / nSteps))
  else
    croundQ ((1 - dot3 X xBase / dot3 X yBase) / (4 / nSteps)) + ((nSteps / 2 : ℕ) : ℤ)

lemma croundQ_bounds (q : ℚ) (M : ℕ) (h0 : 0 ≤ q) (h1 : q ≤ M) :
    0 ≤ croundQ q ∧ croundQ q ≤ M := by
  rw [croundQ, if_neg (by linarith)]
  constructor
  · rw [Int.le_floor]
    push_cast
    linarith
  · have : ⌊q + 1 / 2⌋ < (M : ℤ) + 1 := by
      rw [Int.floor_lt]
      push_cast
      linarith
    omega

/-- C10: for every input ray `X`, `index(X)` lies in `[0, nSteps]`, and the
curve table built by the constructor holds `nSteps + 1` entries (entry
`nSteps` duplicating entry 0), so `getCurve(index(X))` never accesses the
table out of bounds. -/
theorem epipolar_index_in_bounds (alpha beta fu fv u0 v0 : ℚ) (epipole : ℚ × ℚ)
    (R21 : Fin 3 → Fin 3 → ℚ) (t21n : Fin 3 → ℚ) (nSteps : ℕ)
    (xBase yBase X : Fin 3 → ℚ) (hpos : 0 < nSteps) (heven : nSteps % 2 = 0) :
    (epipolarTable alpha beta fu fv u0 v0 epipole R21 t21n xBase yBase nSteps).length
      = nSteps + 1 ∧
    0 ≤ indexFn nSteps xBase yBase X ∧
    indexFn nSteps xBase yBase X ≤ nSteps ∧
    (indexFn nSteps xBase yBase X).toNat
      < (epipolarTable alpha beta fu fv u0 v0 epipole R21 t21n xBase yBase nSteps).length := by
  have hlen : (epipolarTable alpha beta fu fv u0 v0 epipole R21 t21n xBase yBase nSteps).length
      = nSteps + 1 := by
    rw [epipolarTable]
    rw [List.length_append, List.length_map, List.length_range, List.length_singleton]
  have hN : (0 : ℚ) < (nSteps : ℚ) := by exact_mod_cast hpos
  have hstep : (0 : ℚ) < 4 / (nSteps : ℚ) := by positivity
  have hbounds : 0 ≤ indexFn nSteps xBase yBase X ∧ indexFn nSteps xBase yBase X ≤ nSteps := by
    rw [indexFn]
    by_cases hdeg : |dot3 X xBase| + |dot3 X yBase| < 1 / 10000
    · rw [if_pos hdeg]
      constructor
      · exact le_refl 0
      · exact_mod_cast Nat.zero_le nSteps
    · rw [if_neg hdeg]
      by_cases htan : |dot3 X yBase| < |dot3 X xBase|
      · rw [if_pos htan]
        have hc0 : 0 < |dot3 X xBase| :=
          lt_of_le_of_lt (abs_nonneg (dot3 X yBase)) htan
        have hsc : |dot3 X yBase / dot3 X xBase| < 1 := by
          rw [abs_div]
          exact (div_lt_one hc0).mpr htan
        have h1a : -1 < dot3 X yBase / dot3 X xBase := (abs_lt.mp hsc).1
        have h1b : dot3 X yBase / dot3 X xBase < 1 := (abs_lt.mp hsc).2
        have harg0 : 0 ≤ (dot3 X yBase / dot3 X xBase + 1) / (4 / (nSteps : ℚ)) :=
          div_nonneg (by linarith) (le_of_lt hstep)
        have hargN : (dot3 X yBase / dot3 X xBase + 1) / (4 / (nSteps : ℚ)) ≤ nSteps := by
          rw [div_le_iff₀ hstep]
          have h4 : (nSteps : ℚ) * (4 / (nSteps : ℚ)) = 4 := by field_simp
          rw [h4]
          linarith
        have := croundQ_bounds _ nSteps harg0 hargN
        exact ⟨this.1, this.2⟩
      · rw [if_neg htan]
        have hle : |dot3 X xBase| ≤ |dot3 X yBase| := le_of_not_lt htan
        have hs0 : 0 < |dot3 X yBase| := by
          rcases lt_or_eq_of_le (abs_nonneg (dot3 X yBase)) with h | h
          · exact h
          · exfalso
            apply hdeg
            have hx : |dot3 X xBase| = 0 := le_antisymm (by rw [← h] at hle; exact hle)
              (abs_nonneg _)
            rw [hx, ← h]
            norm_num
        have hcs : |dot3 X xBase / dot3 X yBase| ≤ 1 := by
          rw [abs_div]
          exact (div_le_one hs0).mpr hle
        have h1a : -1 ≤ dot3 X xBase / dot3 X yBase := (abs_le.mp hcs).1
        have h1b : dot3 X xBase / dot3 X yBase ≤ 1 := (abs_le.mp hcs).2
        have harg0 : 0 ≤ (1 - dot3 X xBase / dot3 X yBase) / (4 / (nSteps : ℚ)) :=
          div_nonneg (by linarith) (le_of_lt hstep)
        have hM : ((nSteps / 2 : ℕ) : ℚ) = (nSteps : ℚ) / 2 := by
          have h2N : (nSteps / 2 : ℕ) * 2 = nSteps := Nat.div_mul_cancel
            (Nat.dvd_of_mod_eq_zero heven)
          have := congrArg (fun m : ℕ => (m : ℚ)) h2N
          push_cast at this
          linarith
        have hargM : (1 - dot3 X xBase / dot3 X yBase) / (4 / (nSteps : ℚ))
            ≤ ((nSteps / 2 : ℕ) : ℚ) := by
          rw [div_le_iff₀ hstep, hM]
          have h4 : (nSteps : ℚ) / 2 * (4 / (nSteps : ℚ)) = 2 := by field_simp; ring
          rw [h4]
          linarith
        have hb := croundQ_bounds _ (nSteps / 2) harg0 hargM
        have hhalf : (nSteps / 2 : ℕ) + (nSteps / 2 : ℕ) = nSteps := by omega
        constructor
        · omega
        · omega
  exact ⟨hlen, hbounds.1, hbounds.2, by omega⟩

/-- Witness for `epipolar_index_in_bounds` at `nSteps = 2` and a concrete ray. -/
theorem epipolar_index_in_bounds_witness :
    0 < 2 ∧ 2 % 2 = 0 ∧
    (0 ≤ indexFn 2 ![1, 0, 0] ![0, 1, 0] ![1, 0, 0] ∧
      indexFn 2 ![1, 0, 0] ![0, 1, 0] ![1, 0, 0] ≤ 2) := by
  refine ⟨by norm_num, by norm_num, ?_⟩
  have h := epipolar_index_in_bounds 1 1 1 1 0 0 (0, 0)
    (fun i j => if (i : ℕ) = (j : ℕ) then 1 else 0) ![0, 1, 0] 2
    ![1, 0, 0] ![0, 1, 0] ![1, 0, 0] (by norm_num) (by norm_num)
  exact ⟨h.2.1, h.2.2.1⟩

/-! ## Curve rasterizer jump (CurveRasterizer::steps)

Modelled from the spec: the source file of `CurveRasterizer`
(`reconstruction/curve_rasterizer.h`) is not among the provided sources; only
its callers are.  Per the spec, `step()` advances the current pixel by
exactly one pixel along the curve and `steps(n)` advances (or rewinds, for
negative `n`) by `n` pixels in one call, producing the same final pixel as
`|n|` sequential single steps.  The single forward and backward pixel
transitions are abstract functions on the pixel state; `rasterSteps` is the
one-call jump and `rasterWalk` is the sequential walk. -/

/-- Modelled from the spec: the sequential walk, `n` single `step()` calls. -/
def rasterWalk (stepOnce : ℤ × ℤ → ℤ × ℤ) : ℕ → ℤ × ℤ → ℤ × ℤ
  | 0, p => p
  | n + 1, p => rasterWalk stepOnce n (stepOnce p)

/-- Modelled from the spec: `steps(n)`, the one-call jump by `n` pixels,
forward for `n ≥ 0` and backward for `n < 0`. -/
def rasterSteps (stepFwd stepBwd : ℤ × ℤ → ℤ × ℤ) (n : ℤ) (p : ℤ × ℤ) : ℤ × ℤ :=
  if 0 ≤ n then stepFwd^[n.toNat] p else stepBwd^[(-n).toNat] p

lemma iterate_eq_rasterWalk (f : ℤ × ℤ → ℤ × ℤ) : ∀ (n : ℕ) (p : ℤ × ℤ),
    f^[n] p = rasterWalk f n p := by
  intro n
  induction n with
  | zero => intro p; rfl
  | succ n ih =>
      intro p
      rw [Function.iterate_succ_apply]
      exact ih (f p)

/-- C9: for every rasterizer state and every integer `n`, a single call of
`steps(n)` lands on the same pixel as `|n|` sequential single steps in the
corresponding direction. -/
theorem rasterSteps_eq_seq_walk (stepFwd stepBwd : ℤ × ℤ → ℤ × ℤ) (n : ℤ) (p : ℤ × ℤ) :
    (0 ≤ n → rasterSteps stepFwd stepBwd n p = rasterWalk stepFwd n.toNat p) ∧
    (n < 0 → rasterSteps stepFwd stepBwd n p = rasterWalk stepBwd (-n).toNat p) := by
  constructor
  · intro h
    rw [rasterSteps, if_pos h]
    exact iterate_eq_rasterWalk stepFwd n.toNat p
  · intro h
    rw [rasterSteps, if_neg (by omega)]
    exact iterate_eq_rasterWalk stepBwd (-n).toNat p

/-- Witness for `rasterSteps_eq_seq_walk` at a concrete transition and both a
positive and a negative jump. -/
theorem rasterSteps_eq_seq_walk_witness :
    ((0 : ℤ) ≤ 3 ∧ rasterSteps (fun p => (p.1 + 1, p.2)) (fun p => (p.1 - 1, p.2)) 3 (0, 0)
      = rasterWalk (fun p => (p.1 + 1, p.2)) (3 : ℤ).toNat (0, 0)) ∧
    ((-2 : ℤ) < 0 ∧ rasterSteps (fun p => (p.1 + 1, p.2)) (fun p => (p.1 - 1, p.2)) (-2) (0, 0)
      = rasterWalk (fun p => (p.1 - 1, p.2)) (-(-2) : ℤ).toNat (0, 0)) :=
  ⟨⟨by norm_num,
    (rasterSteps_eq_seq_walk (fun p => (p.1 + 1, p.2)) (fun p => (p.1 - 1, p.2)) 3 (0, 0)).1
      (by norm_num)⟩,
   ⟨by norm_num,
    (rasterSteps_eq_seq_walk (fun p => (p.1 + 1, p.2)) (fun p => (p.1 - 1, p.2)) (-2) (0, 0)).2
      (by norm_num)⟩⟩

end Visgeom
